import Mathlib

/-!
Shallow embedding of `pony_gp.py` (tree-based genetic programming) and proofs
about it.

A genome tree is represented in the source as a Python list
`[symbol, child1, ..., childk]`; here it is a `Tree` node carrying the symbol
and the list of children.  Python floats are modelled as rationals, the shared
pseudo-random stream as an infinite sequence of naturals with a position, and
code that can raise an exception returns an `Option`.  In-place list surgery on
aliased nodes (crossover) is modelled by functional replacement at the
pre-order position of the aliased node.
-/

namespace PonyGP

/-- State of Python's `random` module: an infinite stream of raw draws and the
current position in it.  Quantifying over all streams covers every
random-number-generator state. -/
structure Rng where
  stream : Nat → Nat
  pos : Nat

/-- Take one raw draw from the stream. -/
def Rng.next (r : Rng) : Nat × Rng :=
  (r.stream r.pos, ⟨r.stream, r.pos + 1⟩)

/-- Models `bool(random.getrandbits(1))`. -/
def getrandbits1 (r : Rng) : Bool × Rng :=
  (decide (r.next.1 % 2 = 1), r.next.2)

/-- Models `random.random()`: a rational in `[0, 1)` with 53 bits of
precision, as CPython produces. -/
def randFloat (r : Rng) : ℚ × Rng :=
  (((r.next.1 % 2 ^ 53 : ℕ) : ℚ) / 2 ^ 53, r.next.2)

/-- Models `random.randint(0, hi)` (both bounds inclusive). -/
def randint0 (hi : Nat) (r : Rng) : Nat × Rng :=
  (r.next.1 % (hi + 1), r.next.2)

/-- Models `random.choice(lst)`.  The default is never reached: every call
site checks the list is nonempty. -/
def randChoice {α : Type} (lst : List α) (dflt : α) (r : Rng) : α × Rng :=
  (lst.getD (r.next.1 % lst.length) dflt, r.next.2)

/-- A genome tree.  The Python representation of a node is the list
`[symbol, child1, ..., childk]`. -/
inductive Tree where
  | node (sym : String) (children : List Tree) : Tree

/-- The symbol of the node, `node[0]` in the source. -/
def Tree.sym : Tree → String
  | .node s _ => s

/-- The children of the node, `node[1:]` in the source. -/
def Tree.children : Tree → List Tree
  | .node _ cs => cs

/-- Python `len(node)` of the node's list representation. -/
def Tree.listLen (t : Tree) : Nat := 1 + t.children.length

mutual
def Tree.deq : (a b : Tree) → Decidable (a = b)
  | .node sa ca, .node sb cb =>
    match String.decEq sa sb with
    | isFalse h => isFalse (by simp only [Tree.node.injEq]; exact fun hc => absurd hc.1 h)
    | isTrue h1 =>
      match Tree.deqList ca cb with
      | isFalse h => isFalse (by simp only [Tree.node.injEq]; exact fun hc => absurd hc.2 h)
      | isTrue h2 => isTrue (by rw [h1, h2])
def Tree.deqList : (a b : List Tree) → Decidable (a = b)
  | [], [] => isTrue rfl
  | [], _ :: _ => isFalse (by intro h; cases h)
  | _ :: _, [] => isFalse (by intro h; cases h)
  | a :: as, b :: bs =>
    match Tree.deq a b with
    | isFalse h => isFalse (by simp only [List.cons.injEq]; exact fun hc => absurd hc.1 h)
    | isTrue h1 =>
      match Tree.deqList as bs with
      | isFalse h => isFalse (by simp only [List.cons.injEq]; exact fun hc => absurd hc.2 h)
      | isTrue h2 => isTrue (by rw [h1, h2])
end

instance : DecidableEq Tree := Tree.deq

/-- The arities dictionary built by `get_arities` (the symbol table the
program always runs with). -/
def aritiesTable : List (String × Nat) :=
  [("1", 0), ("x0", 0), ("x1", 0), ("+", 2), ("-", 2), ("*", 2), ("/", 2)]

/-- Dictionary lookup `symbols["arities"][s]`; `none` is Python's KeyError. -/
def arities (s : String) : Option Nat := aritiesTable.lookup s

/-- Total version of the arity lookup used where the source indexes the
dictionary directly; all such uses are on declared symbols, so the
default 0 is never the KeyError case in the runs the claims quantify over. -/
def arity (s : String) : Nat := (arities s).getD 0

/-- The terminal symbols (arity 0), in the iteration order of `get_arities`. -/
def terminals : List String := ["1", "x0", "x1"]

/-- The function symbols (arity > 0), in the iteration order of
`get_arities`. -/
def functions : List String := ["+", "-", "*", "/"]

/-- Models `get_rnd_symbol(depth, max_depth, symbols, full)`.  `depth` and
`max_depth` are Python ints (`subtree_mutation` passes a value that can be
negative).  The random bit is drawn only when `full` is false, matching the
short-circuit in `not full and bool(random.getrandbits(1))`. -/
def get_rnd_symbol (depth max_depth : Int) (full : Bool) (r : Rng) : String × Rng :=
  if depth ≥ max_depth then
    randChoice terminals "" r
  else
    if full then
      randChoice functions "" r
    else
      let b := (getrandbits1 r).1
      let r' := (getrandbits1 r).2
      if b then randChoice terminals "" r' else randChoice functions "" r'

/-- The child-building loop of `grow`: `arity` times, pick a symbol, append a
child node and grow it.  Generic in the two operations so that `growFuel`'s
recursion is structural on the fuel. -/
def growLoopAux (pick : Rng → String × Rng) (growChild : String → Rng → Tree × Rng) :
    Nat → Rng → List Tree × Rng
  | 0, r => ([], r)
  | k + 1, r =>
    let sym := (pick r).1
    let r1 := (pick r).2
    let child := (growChild sym r1).1
    let r2 := (growChild sym r1).2
    let p := growLoopAux pick growChild k r2
    (child :: p.1, p.2)

/-- Fuel-indexed version of `grow`.  The wrapper `grow` below supplies fuel `max_depth + 2 - depth`,
which is never exhausted at a node that still has children to build
(growFuel_ok); at fuel 0 the node is returned unchanged. -/
def growFuel : Nat → Tree → Nat → Nat → Bool → Rng → Tree × Rng
  | 0, t, _, _, _, r => (t, r)
  | f + 1, Tree.node s cs, depth, max_depth, full, r =>
    let p :=
      growLoopAux (fun r0 => get_rnd_symbol (depth : Int) (max_depth : Int) full r0)
        (fun sym r0 => growFuel f (Tree.node sym []) (depth + 1) max_depth full r0)
        (arity s) r
    (Tree.node s (cs ++ p.1), p.2)

/-- Models `grow(node, depth, max_depth, full, symbols)`: for each of the
arity-many child slots of the node, pick a random symbol with
`get_rnd_symbol(depth, max_depth, symbols, full)`, append the child and grow
it one level deeper. -/
def grow (t : Tree) (depth max_depth : Nat) (full : Bool) (r : Rng) : Tree × Rng :=
  growFuel (max_depth + 2 - depth) t depth max_depth full r

mutual
/-- Models `get_number_of_nodes(node, cnt)`: count the nodes of the tree on
top of the accumulator, depth-first left-to-right. -/
def get_number_of_nodes : Tree → Nat → Nat
  | Tree.node _ cs, cnt => get_number_of_nodesF cs (cnt + 1)
def get_number_of_nodesF : List Tree → Nat → Nat
  | [], cnt => cnt
  | c :: cs, cnt => get_number_of_nodesF cs (get_number_of_nodes c cnt)
end

/-- The while-loop of `get_node_at_index`: the stack of unvisited nodes (head
here is the end of the Python list, where `pop` takes), the node popped last,
and the remaining iterations `idx - cnt`.  Popping from an empty stack is
Python's IndexError, modelled as `none`. -/
def get_node_at_index_loop : List Tree → Tree → Nat → Option Tree
  | _, nd, 0 => some nd
  | [], _, _ + 1 => none
  | t :: stack, _, k + 1 => get_node_at_index_loop (t.children ++ stack) t k

/-- Models `get_node_at_index(root, idx)`: iterative stack traversal starting
from `[root]` with the current node initialised to the root. -/
def get_node_at_index (root : Tree) (idx : Nat) : Option Tree :=
  get_node_at_index_loop [root] root idx

mutual
/-- Models `get_max_depth(node, depth, max_depth)`: raise the accumulator to
the current depth, then traverse every child one level deeper. -/
def get_max_depth : Tree → Nat → Nat → Nat
  | Tree.node _ cs, depth, md => get_max_depthF cs (depth + 1) (max md depth)
def get_max_depthF : List Tree → Nat → Nat → Nat
  | [], _, md => md
  | c :: cs, depth, md => get_max_depthF cs depth (get_max_depth c depth md)
end

/-- An individual: a genome tree and a fitness value (a Python float,
modelled as a rational). -/
structure Individual where
  genome : Tree
  fitness : ℚ
deriving DecidableEq

/-- The sentinel fitness `DEFAULT_FITNESS = -1000`. -/
def DEFAULT_FITNESS : ℚ := -1000

/-- The sort key of `sort_population`: ascending fitness. -/
def fitLe (a b : Individual) : Prop := a.fitness ≤ b.fitness

instance : DecidableRel fitLe := fun a b => inferInstanceAs (Decidable (a.fitness ≤ b.fitness))

instance : IsTotal Individual fitLe := ⟨fun a b => le_total a.fitness b.fitness⟩

instance : IsTrans Individual fitLe := ⟨fun _ _ _ h1 h2 => le_trans h1 h2⟩

/-- Models `sort_population(individuals)`: stable sort ascending on fitness,
then reverse, i.e. descending fitness order. -/
def sort_population (individuals : List Individual) : List Individual :=
  (List.insertionSort fitLe individuals).reverse

/-- Digits to a natural number, most significant first. -/
def decDigits (l : List Char) : Nat :=
  l.foldl (fun acc c => acc * 10 + (c.toNat - 48)) 0

/-- Models `int(s)` for the digit strings that appear after the `x` of a
variable symbol; anything else is Python's ValueError. -/
def parseNat (l : List Char) : Option Nat :=
  if l ≠ [] ∧ l.all Char.isDigit then some (decDigits l) else none

/-- Models `float(s)` on an unsigned decimal literal (digits with an optional
fractional part); other shapes are Python's ValueError.  This covers every
constant terminal the program's symbol table can produce. -/
def parseUnsigned (l : List Char) : Option ℚ :=
  if l.contains '.' then
    let ip := l.takeWhile (fun c => c ≠ '.')
    let fp := (l.dropWhile (fun c => c ≠ '.')).drop 1
    if (ip ++ fp) ≠ [] ∧ ip.all Char.isDigit ∧ fp.all Char.isDigit then
      some ((decDigits ip : ℚ) + (decDigits fp : ℚ) / (10 : ℚ) ^ fp.length)
    else none
  else
    if l ≠ [] ∧ l.all Char.isDigit then some (decDigits l : ℚ) else none

/-- Models `float(s)`: optional leading minus sign, then a decimal literal. -/
def parseFloat (s : String) : Option ℚ :=
  match s.data with
  | '-' :: rest => (parseUnsigned rest).map (fun q => -q)
  | l => parseUnsigned l

/-- Models `symbol.startswith("x")`. -/
def startsWithX (s : String) : Bool :=
  match s.data with
  | c :: _ => c = 'x'
  | [] => false

/-- Models `evaluate(node, case)`.  `+ - *` apply the operator to the two
children; `/` is protected: a denominator of magnitude below `0.00001` is
replaced by 1.  A symbol starting with `x` is a variable reference into the
case vector (`case[int(symbol[1:])]`, IndexError modelled `none`); any other
symbol is parsed as a float constant.  A function node missing its operands
is Python's IndexError on `node[1]`/`node[2]`, also `none`. -/
def evaluate : Tree → List ℚ → Option ℚ
  | Tree.node s cs, case =>
    match s, cs with
    | "+", c1 :: c2 :: _ =>
      match evaluate c1 case, evaluate c2 case with
      | some a, some b => some (a + b)
      | _, _ => none
    | "-", c1 :: c2 :: _ =>
      match evaluate c1 case, evaluate c2 case with
      | some a, some b => some (a - b)
      | _, _ => none
    | "*", c1 :: c2 :: _ =>
      match evaluate c1 case, evaluate c2 case with
      | some a, some b => some (a * b)
      | _, _ => none
    | "/", c1 :: c2 :: _ =>
      match evaluate c1 case, evaluate c2 case with
      | some numerator, some denominator =>
        some (numerator / if |denominator| < 1 / 100000 then 1 else denominator)
      | _, _ => none
    | sym, _ =>
      if startsWithX sym then
        match parseNat (sym.data.drop 1) with
        | none => none
        | some i => case.get? i
      else
        parseFloat sym

/-- The accumulation loop of `evaluate_individual` over the zipped
(case, target) pairs: add the squared error of each case, propagating any
evaluator failure. -/
def evaluate_cases (genome : Tree) : List (List ℚ × ℚ) → ℚ → Option ℚ
  | [], fitness => some fitness
  | (case, target) :: rest, fitness =>
    match evaluate genome case with
    | none => none
    | some output =>
      let error := output - target
      evaluate_cases genome rest (fitness + error * error)

/-- Models `evaluate_individual(individual, fitness_cases, targets)`: sum the
squared errors over `zip(fitness_cases, targets)`, then assign
`-fitness / len(targets)` to the individual's fitness.  Division by
`len(targets) = 0` is Python's ZeroDivisionError, modelled `none`. -/
def evaluate_individual (individual : Individual) (fitness_cases : List (List ℚ))
    (targets : List ℚ) : Option Individual :=
  match evaluate_cases individual.genome (fitness_cases.zip targets) 0 with
  | none => none
  | some fitness =>
    if targets.length = 0 then none
    else some ⟨individual.genome, -fitness / (targets.length : ℚ)⟩

/-- Run parameters, as the source's `param` dictionary. -/
structure Param where
  population_size : Nat
  max_depth : Nat
  generations : Nat
  tournament_size : Nat
  elite_size : Nat
  crossover_probability : ℚ
  mutation_probability : ℚ
  fitness_cases : List (List ℚ)
  targets : List ℚ

/-- Models `evaluate_fitness(individuals, param)`: evaluate every individual
in order, propagating any failure. -/
def evaluate_fitness : List Individual → Param → Option (List Individual)
  | [], _ => some []
  | ind :: rest, param =>
    match evaluate_individual ind param.fitness_cases param.targets with
    | none => none
    | some ind' =>
      match evaluate_fitness rest param with
      | none => none
      | some rest' => some (ind' :: rest')

mutual
/-- Models `get_depth_from_index(node, idx, node_idx, depth, idx_depth)`:
when the current index equals the searched index, record the current depth;
then recurse into each child one level deeper, threading `(idx_depth, idx)`.
The source never increments `idx`. -/
def get_depth_from_index : Tree → Nat → Nat → Nat → Nat → Nat × Nat
  | Tree.node _ cs, idx, node_idx, depth, idx_depth =>
    let idx_depth1 := if node_idx = idx then depth else idx_depth
    get_depth_from_indexF cs idx node_idx (depth + 1) idx_depth1
def get_depth_from_indexF : List Tree → Nat → Nat → Nat → Nat → Nat × Nat
  | [], idx, _, _, idx_depth => (idx_depth, idx)
  | c :: cs, idx, node_idx, depth, idx_depth =>
    let p := get_depth_from_index c idx node_idx depth idx_depth
    get_depth_from_indexF cs p.2 node_idx depth p.1
end

mutual
/-- Models `find_and_replace_subtree(root, subtree, node_idx, idx)`: increment
the index on entering a node; on a match, pop the node's symbol and insert the
subtree's elements at the front (the node becomes the subtree's symbol, then
the subtree's children, then the node's old children); otherwise recurse into
the children, threading the index. -/
def find_and_replace_subtree : Tree → Tree → Int → Int → Tree × Int
  | Tree.node s cs, subtree, node_idx, idx =>
    let idx1 := idx + 1
    if node_idx = idx1 then
      (Tree.node subtree.sym (subtree.children ++ cs), idx1)
    else
      let p := find_and_replace_subtreeF cs subtree node_idx idx1
      (Tree.node s p.1, p.2)
def find_and_replace_subtreeF : List Tree → Tree → Int → Int → List Tree × Int
  | [], _, _, idx => ([], idx)
  | c :: cs, subtree, node_idx, idx =>
    let p := find_and_replace_subtree c subtree node_idx idx
    let q := find_and_replace_subtreeF cs subtree node_idx p.2
    (p.1 :: q.1, q.2)
end

/-- Models `subtree_mutation(individual, param)`: deep-copy with reset
fitness; with probability `mutation_probability` pick a random node index,
look its depth up with `get_depth_from_index`, draw a new symbol with
`get_rnd_symbol(max_depth - node_depth, max_depth, symbols)`, grow a subtree
from it if it is a function, and splice it in with
`find_and_replace_subtree(genome, new_subtree, node_idx, -1)`. -/
def subtree_mutation (individual : Individual) (param : Param) (r : Rng) :
    Individual × Rng :=
  let p := (randFloat r).1
  let r1 := (randFloat r).2
  if p < param.mutation_probability then
    let end_node_idx := get_number_of_nodes individual.genome 0 - 1
    let node_idx := (randint0 end_node_idx r1).1
    let r2 := (randint0 end_node_idx r1).2
    let node_depth := (get_depth_from_index individual.genome 0 node_idx 0 0).1
    let max_subtree_depth : Int := (param.max_depth : Int) - (node_depth : Int)
    let sym := (get_rnd_symbol max_subtree_depth (param.max_depth : Int) false r2).1
    let r3 := (get_rnd_symbol max_subtree_depth (param.max_depth : Int) false r2).2
    let ns :=
      if sym ∈ functions then
        grow (Tree.node sym []) node_depth param.max_depth (getrandbits1 r3).1 (getrandbits1 r3).2
      else (Tree.node sym [], r3)
    let genome' := (find_and_replace_subtree individual.genome ns.1 (node_idx : Int) (-1)).1
    (⟨genome', DEFAULT_FITNESS⟩, ns.2)
  else (⟨individual.genome, DEFAULT_FITNESS⟩, r1)

mutual
/-- Pre-order, depth-first, left-to-right node listing (root first). -/
def preorder : Tree → List Tree
  | Tree.node s cs => Tree.node s cs :: preorderF cs
def preorderF : List Tree → List Tree
  | [] => []
  | c :: cs => preorder c ++ preorderF cs
end

mutual
/-- Number of nodes in the tree. -/
def numNodes : Tree → Nat
  | Tree.node _ cs => 1 + numNodesF cs
def numNodesF : List Tree → Nat
  | [] => 0
  | c :: cs => numNodes c + numNodesF cs
end

/-- The node at a 0-based pre-order position. -/
def nodeAtPos (t : Tree) (p : Nat) : Option Tree := (preorder t).get? p

mutual
/-- Positions analogue of `get_nodes_with_equal_arity(root, arity, nodes,
idx, arities)`.  The source collects aliases of the matching nodes, which the
caller then overwrites in place; since the index is incremented on entering
each node (pre-order), the alias collected at a node is exactly the node at
pre-order position `idx` of the searched tree, so the model collects those
positions.  The returned first component is the source's final index. -/
def get_nodes_with_equal_arityP : Tree → Nat → List Int → Int → Int × List Int
  | Tree.node s cs, a, nodes, idx =>
    let idx1 := idx + 1
    let nodes1 := if arities s = some a then nodes ++ [idx1] else nodes
    get_nodes_with_equal_arityPF cs a nodes1 idx1
def get_nodes_with_equal_arityPF : List Tree → Nat → List Int → Int → Int × List Int
  | [], _, nodes, idx => (idx, nodes)
  | c :: cs, a, nodes, idx =>
    let p := get_nodes_with_equal_arityP c a nodes idx
    get_nodes_with_equal_arityPF cs a p.2 p.1
end

mutual
/-- Replace the subtree rooted at the given pre-order position; out-of-range
positions leave the tree unchanged.  This is the functional counterpart of
`replace_subtree(new, old)`, which in the source rewrites the contents of an
aliased node in place. -/
def replaceAtPos : Tree → Nat → Tree → Tree
  | Tree.node s cs, i, new => if i = 0 then new else Tree.node s (replaceAtPosF cs (i - 1) new)
def replaceAtPosF : List Tree → Nat → Tree → List Tree
  | [], _, _ => []
  | c :: cs, i, new =>
    if i < numNodes c then replaceAtPos c i new :: cs
    else c :: replaceAtPosF cs (i - numNodes c) new
end

/-- Models `subtree_crossover(parent1, parent2, param)`.  The offspring start
as deep copies with reset fitness.  The guard tests the crossover draw and,
twice, the list length of the first offspring's genome (the source's own
condition).  The crossover point of the first offspring is the alias returned
by `get_node_at_index`, whose pre-order position is `node_idx - 1` (with 0
and 1 both the root, see get_node_at_index_eq); the second point is drawn from
the positions with equal arity.  The two in-place `replace_subtree` calls
swap the subtrees at those positions. -/
def subtree_crossover (parent1 parent2 : Individual) (param : Param) (r : Rng) :
    Option ((Individual × Individual) × Rng) :=
  let g0 := parent1.genome
  let g1 := parent2.genome
  let unchanged : Individual × Individual := (⟨g0, DEFAULT_FITNESS⟩, ⟨g1, DEFAULT_FITNESS⟩)
  let q := (randFloat r).1
  let r1 := (randFloat r).2
  if q < param.crossover_probability ∧ g0.listLen > 1 ∧ g0.listLen > 0 then
    let node_idx := (randint0 (get_number_of_nodes g0 0 - 1) r1).1
    let r2 := (randint0 (get_number_of_nodes g0 0 - 1) r1).2
    match get_node_at_index g0 node_idx with
    | none => none
    | some offspring_0_node =>
      let p0 := node_idx - 1
      if offspring_0_node.sym ∈ functions then
        let a := arity offspring_0_node.sym
        let ps := (get_nodes_with_equal_arityP g1 a [] (-1)).2
        if ps = [] then some (unchanged, r2)
        else
          let p1 := (randChoice ps 0 r2).1.toNat
          let r3 := (randChoice ps 0 r2).2
          match nodeAtPos g1 p1 with
          | none => none
          | some offspring_1_node =>
            let g1' := replaceAtPos g1 p1 offspring_0_node
            let g0' := replaceAtPos g0 p0 offspring_1_node
            some ((⟨g0', DEFAULT_FITNESS⟩, ⟨g1', DEFAULT_FITNESS⟩), r3)
      else some (unchanged, r2)
  else some (unchanged, r1)

/-- Models `random.sample(population, k)`: k distinct positions, drawn one at
a time; `none` is Python's ValueError when fewer than k elements remain. -/
def randSample {α : Type} : List α → Nat → Rng → Option (List α × Rng)
  | _, 0, r => some ([], r)
  | [], _ + 1, _ => none
  | x :: xs, k + 1, r =>
    let l := x :: xs
    let i := r.next.1 % l.length
    let r1 := r.next.2
    match l.get? i with
    | none => none
    | some y =>
      match randSample (l.eraseIdx i) k r1 with
      | none => none
      | some (ys, r2) => some (y :: ys, r2)

/-- The winners loop of `tournament_selection`: `count` tournaments, each
drawing `tsize` competitors, ranking them and keeping the best.  Indexing
`competitors[0]` on an empty ranking is Python's IndexError, `none`. -/
def tournament_loop (population : List Individual) (tsize : Nat) :
    Nat → Rng → Option (List Individual × Rng)
  | 0, r => some ([], r)
  | k + 1, r =>
    match randSample population tsize r with
    | none => none
    | some (competitors, r1) =>
      match sort_population competitors with
      | [] => none
      | best :: _ =>
        match tournament_loop population tsize k r1 with
        | none => none
        | some (ws, r2) => some (best :: ws, r2)

/-- Models `tournament_selection(population, param)`: `population_size`
tournaments of `tournament_size` competitors each. -/
def tournament_selection (population : List Individual) (param : Param) (r : Rng) :
    Option (List Individual × Rng) :=
  tournament_loop population param.tournament_size param.population_size r

/-- One iteration of the crossover collection loop of `search_loop`: sample
two parents, cross them over, append both offspring in front of what the
rest of the loop produces. -/
def breedStep (parents : List Individual) (param : Param)
    (cont : Rng → Option (List Individual × Rng)) (r : Rng) :
    Option (List Individual × Rng) :=
  match randSample parents 2 r with
  | none => none
  | some (ps, r1) =>
    match ps with
    | pa :: pb :: _ =>
      match subtree_crossover pa pb param r1 with
      | none => none
      | some ((c1, c2), r2) =>
        match cont r2 with
        | none => none
        | some (rest, r3) => some (c1 :: c2 :: rest, r3)
    | _ => none

/-- The crossover collection loop of `search_loop`: while the new population
is short of `population_size`, sample two parents and append both offspring
of their crossover.  `k` is the number of individuals still missing; each
iteration produces two, so the counter falls by two (to zero from one). -/
def breedLoop (parents : List Individual) (param : Param) :
    Nat → Rng → Option (List Individual × Rng)
  | 0, r => some ([], r)
  | 1, r => breedStep parents param (fun r2 => breedLoop parents param 0 r2) r
  | k + 2, r => breedStep parents param (fun r2 => breedLoop parents param k r2) r

/-- The mutation pass of `search_loop`: replace each individual by its
subtree mutation, in order. -/
def mutateAll (param : Param) : List Individual → Rng → List Individual × Rng
  | [], r => ([], r)
  | ind :: rest, r =>
    let p := subtree_mutation ind param r
    let q := mutateAll param rest p.2
    (p.1 :: q.1, q.2)

/-- Models `generational_replacement(new_population, old_population, param)`:
sort the old population descending, append (copies of) its `elite_size` best
to the new population, sort the result descending and truncate to
`population_size`. -/
def generational_replacement (new_population old_population : List Individual)
    (param : Param) : List Individual :=
  let old_sorted := sort_population old_population
  let combined := new_population ++ old_sorted.take param.elite_size
  (sort_population combined).take param.population_size

/-- One iteration of the generation loop of `search_loop` (lines 417-453):
tournament selection, crossover collection truncated to `population_size`,
mutation, fitness evaluation of the new population, then generational
replacement against the previous population. -/
def search_step (population : List Individual) (param : Param) (r : Rng) :
    Option (List Individual × Rng) :=
  match tournament_selection population param r with
  | none => none
  | some (parents, r1) =>
    match breedLoop parents param param.population_size r1 with
    | none => none
    | some (bred, r2) =>
      let truncated := bred.take param.population_size
      let mp := mutateAll param truncated r2
      match evaluate_fitness mp.1 param with
      | none => none
      | some evaluated =>
        some (generational_replacement evaluated population param, mp.2)

/-- Best (highest) fitness present in a population. -/
def bestFitness (l : List Individual) : WithBot ℚ :=
  (l.map Individual.fitness).maximum

mutual
/-- Reference depth of a tree: a leaf has depth 0. -/
def Tree.depth : Tree → Nat
  | Tree.node _ cs => forestDepth cs
/-- One plus the maximal depth of the trees of the forest (0 if empty): the
depth of a node with these children. -/
def forestDepth : List Tree → Nat
  | [] => 0
  | c :: cs => max (Tree.depth c + 1) (forestDepth cs)
end

mutual
/-- The arity invariant: every node's child count equals its symbol's
declared arity. -/
def arityOk : Tree → Bool
  | Tree.node s cs => (arities s == some cs.length) && arityOkF cs
def arityOkF : List Tree → Bool
  | [] => true
  | c :: cs => arityOk c && arityOkF cs
end

mutual
/-- Pre-order listing of the nodes paired with their depths (root at the
given depth). -/
def preorderD : Tree → Nat → List (Tree × Nat)
  | Tree.node s cs, d => (Tree.node s cs, d) :: preorderDF cs (d + 1)
def preorderDF : List Tree → Nat → List (Tree × Nat)
  | [], _ => []
  | c :: cs, d => preorderD c d ++ preorderDF cs d
end

/-- Independent recursive depth computation: the depth (root = 0) of the node
at a 0-based pre-order position. -/
def depthAtPos (t : Tree) (i : Nat) : Option Nat := ((preorderD t 0).get? i).map Prod.snd

mutual
/-- Depth of the last node of a pre-order traversal of a tree rooted at depth
`d`: follow last children to the end. -/
def lastDepth : Tree → Nat → Nat
  | Tree.node _ cs, d => lastDepthF cs d
/-- Depth of the last pre-order node of a node at depth `d` with this list of
children (`d` itself if there are none). -/
def lastDepthF : List Tree → Nat → Nat
  | [], d => d
  | [c], d => lastDepth c (d + 1)
  | _ :: c :: cs, d => lastDepthF (c :: cs) d
end

/-- Fold maximum of a list of naturals. -/
def maxList (l : List Nat) : Nat := l.foldr max 0

/-- Example tree `['+', ['x0'], ['x1']]`. -/
def exTree : Tree := Tree.node "+" [Tree.node "x0" [], Tree.node "x1" []]

/-- Example tree `['-', ['1'], ['x0']]`. -/
def exTree2 : Tree := Tree.node "-" [Tree.node "1" [], Tree.node "x0" []]

/-- The all-zero random stream, used to instantiate theorems at a concrete
random-number-generator state. -/
def rng0 : Rng := ⟨fun _ => 0, 0⟩

/-- A concrete parameter bundle used to instantiate theorems. -/
def param0 : Param := ⟨2, 1, 10, 2, 1, 1, 1, [], []⟩

/-- A concrete parameter bundle for instantiating the search-step theorem:
population 2, tournament size 1, elite size 1, zero variation
probabilities, one fitness case. -/
def param7 : Param := ⟨2, 1, 0, 1, 1, 0, 0, [[0]], [1]⟩

/-- A concrete evaluated individual: the constant expression "1". -/
def indOne : Individual := ⟨Tree.node "1" [], 0⟩

/-- A concrete evaluated population of two individuals. -/
def pop7 : List Individual := [indOne, indOne]

/-! ### Counting and pre-order listing -/

theorem numNodes_pos : ∀ t : Tree, 1 ≤ numNodes t
  | Tree.node _ _ => by rw [numNodes]; omega

theorem preorderF_append : ∀ a b : List Tree, preorderF (a ++ b) = preorderF a ++ preorderF b
  | [], _ => rfl
  | c :: cs, b => by
    rw [List.cons_append, preorderF, preorderF, preorderF_append cs b, List.append_assoc]

mutual
theorem preorder_length : ∀ t : Tree, (preorder t).length = numNodes t
  | Tree.node _ cs => by
    rw [preorder, numNodes, List.length_cons, preorderF_length cs]; omega
theorem preorderF_length : ∀ cs : List Tree, (preorderF cs).length = numNodesF cs
  | [] => rfl
  | c :: cs => by
    rw [preorderF, numNodesF, List.length_append, preorder_length c, preorderF_length cs]
end

mutual
theorem get_number_of_nodes_eq : ∀ (t : Tree) (c : Nat),
    get_number_of_nodes t c = c + numNodes t
  | Tree.node _ cs, c => by
    rw [get_number_of_nodes, numNodes, get_number_of_nodesF_eq cs (c + 1)]; omega
theorem get_number_of_nodesF_eq : ∀ (cs : List Tree) (c : Nat),
    get_number_of_nodesF cs c = c + numNodesF cs
  | [], c => by rw [get_number_of_nodesF, numNodesF]; omega
  | d :: cs, c => by
    rw [get_number_of_nodesF, numNodesF, get_number_of_nodesF_eq cs _,
      get_number_of_nodes_eq d c]; omega
end

theorem self_mem_preorder : ∀ t : Tree, t ∈ preorder t
  | Tree.node _ cs => by rw [preorder]; exact List.mem_cons_self _ _

mutual
theorem arityOk_of_mem_preorder : ∀ t n : Tree, arityOk t = true → n ∈ preorder t →
    arityOk n = true
  | Tree.node s cs, n, h, hm => by
    rw [preorder] at hm
    rw [arityOk, Bool.and_eq_true] at h
    rcases List.mem_cons.mp hm with he | hm'
    · subst he; rw [arityOk, Bool.and_eq_true]; exact h
    · exact arityOkF_of_mem_preorderF cs n h.2 hm'
theorem arityOkF_of_mem_preorderF : ∀ (cs : List Tree) (n : Tree), arityOkF cs = true →
    n ∈ preorderF cs → arityOk n = true
  | [], n, _, hm => by rw [preorderF] at hm; cases hm
  | c :: cs, n, h, hm => by
    rw [preorderF] at hm
    rw [arityOkF, Bool.and_eq_true] at h
    rcases List.mem_append.mp hm with hm' | hm'
    · exact arityOk_of_mem_preorder c n h.1 hm'
    · exact arityOkF_of_mem_preorderF cs n h.2 hm'
end

theorem nodeAtPos_mem {t n : Tree} {p : Nat} (h : nodeAtPos t p = some n) : n ∈ preorder t :=
  List.get?_mem h

/-! ### Characterisation of the node-lookup loop -/

theorem get_node_at_index_loop_eq :
    ∀ (k : Nat) (stack : List Tree) (nd : Tree),
      get_node_at_index_loop stack nd (k + 1) = (preorderF stack).get? k := by
  intro k
  induction k with
  | zero =>
    intro stack nd
    match stack with
    | [] => rfl
    | Tree.node s cs :: rest =>
      rw [get_node_at_index_loop, get_node_at_index_loop, preorderF, preorder]
      rfl
  | succ k ih =>
    intro stack nd
    match stack with
    | [] => rfl
    | Tree.node s cs :: rest =>
      rw [get_node_at_index_loop, ih, preorderF, preorder, Tree.children,
        preorderF_append, List.cons_append, List.get?_cons_succ]

theorem get_node_at_index_eq (t : Tree) (i : Nat) :
    get_node_at_index t i = if i = 0 then some t else (preorder t).get? (i - 1) := by
  match i with
  | 0 => rfl
  | k + 1 =>
    rw [get_node_at_index, get_node_at_index_loop_eq k [t] t, if_neg (Nat.succ_ne_zero k)]
    rw [preorderF, preorderF, List.append_nil, Nat.add_sub_cancel]

/-! ### Depth -/

theorem depth_children : ∀ t : Tree, Tree.depth t = forestDepth t.children
  | Tree.node _ _ => rfl

theorem forestDepth_append : ∀ a b : List Tree,
    forestDepth (a ++ b) = max (forestDepth a) (forestDepth b)
  | [], b => by rw [List.nil_append, forestDepth]; omega
  | c :: cs, b => by
    rw [List.cons_append, forestDepth, forestDepth, forestDepth_append cs b]; omega

theorem forestDepth_le_of_mem : ∀ (cs : List Tree) (c : Tree), c ∈ cs →
    Tree.depth c + 1 ≤ forestDepth cs
  | c' :: cs, c, h => by
    rw [forestDepth]
    rcases List.mem_cons.mp h with he | hm
    · subst he; omega
    · have := forestDepth_le_of_mem cs c hm; omega

theorem forestDepth_le : ∀ (cs : List Tree) (n : Nat),
    (∀ c ∈ cs, Tree.depth c + 1 ≤ n) → forestDepth cs ≤ n
  | [], n, _ => by rw [forestDepth]; omega
  | c :: cs, n, h => by
    rw [forestDepth]
    have h1 := h c (List.mem_cons_self c cs)
    have h2 := forestDepth_le cs n (fun x hx => h x (List.mem_cons_of_mem c hx))
    omega

mutual
theorem get_max_depth_eq : ∀ (t : Tree) (d md : Nat),
    get_max_depth t d md = max md (d + Tree.depth t)
  | Tree.node s cs, d, md => by
    rw [get_max_depth, get_max_depthF_eq cs d (max md d) (by omega), depth_children,
      Tree.children]
    omega
theorem get_max_depthF_eq : ∀ (cs : List Tree) (d md : Nat), d ≤ md →
    get_max_depthF cs (d + 1) md = max md (d + forestDepth cs)
  | [], d, md, h => by rw [get_max_depthF, forestDepth]; omega
  | c :: cs, d, md, h => by
    rw [get_max_depthF, forestDepth, get_max_depth_eq c (d + 1) md,
      get_max_depthF_eq cs d (max md (d + 1 + Tree.depth c)) (by omega)]
    omega
end

/-! ### The depth-lookup helper -/

mutual
theorem gdfi_idx : ∀ (t : Tree) (idx ni d acc : Nat),
    (get_depth_from_index t idx ni d acc).2 = idx
  | Tree.node _ cs, idx, ni, d, acc => by
    rw [get_depth_from_index]
    exact gdfiF_idx cs idx ni (d + 1) _
theorem gdfiF_idx : ∀ (cs : List Tree) (idx ni d acc : Nat),
    (get_depth_from_indexF cs idx ni d acc).2 = idx
  | [], _, _, _, _ => rfl
  | c :: cs, idx, ni, d, acc => by
    rw [get_depth_from_indexF, gdfi_idx c idx ni d acc, gdfiF_idx cs idx ni d _]
end

mutual
theorem gdfi_ne : ∀ (t : Tree) (idx ni d acc : Nat), ni ≠ idx →
    (get_depth_from_index t idx ni d acc).1 = acc
  | Tree.node _ cs, idx, ni, d, acc, h => by
    rw [get_depth_from_index, if_neg h]
    exact gdfiF_ne cs idx ni (d + 1) acc h
theorem gdfiF_ne : ∀ (cs : List Tree) (idx ni d acc : Nat), ni ≠ idx →
    (get_depth_from_indexF cs idx ni d acc).1 = acc
  | [], _, _, _, _, _ => rfl
  | c :: cs, idx, ni, d, acc, h => by
    rw [get_depth_from_indexF, gdfi_idx c idx ni d acc, gdfi_ne c idx ni d acc h,
      gdfiF_ne cs idx ni d acc h]
end

mutual
theorem gdfi_last : ∀ (t : Tree) (idx d acc : Nat),
    (get_depth_from_index t idx idx d acc).1 = lastDepth t d
  | Tree.node s [], idx, d, acc => by
    rw [get_depth_from_index, if_pos rfl, lastDepth, lastDepthF, get_depth_from_indexF]
  | Tree.node s (c :: cs), idx, d, acc => by
    rw [get_depth_from_index, if_pos rfl, lastDepth]
    exact gdfiF_last (c :: cs) idx d d (List.cons_ne_nil c cs)
theorem gdfiF_last : ∀ (cs : List Tree) (idx d acc : Nat), cs ≠ [] →
    (get_depth_from_indexF cs idx idx (d + 1) acc).1 = lastDepthF cs d
  | [], _, _, _, h => absurd rfl h
  | [c], idx, d, acc, _ => by
    rw [get_depth_from_indexF, get_depth_from_indexF, lastDepthF]
    exact gdfi_last c idx (d + 1) acc
  | c :: c' :: cs, idx, d, acc, _ => by
    rw [get_depth_from_indexF, lastDepthF, gdfi_idx c idx idx (d + 1) acc]
    exact gdfiF_last (c' :: cs) idx d _ (List.cons_ne_nil c' cs)
end

mutual
theorem lastDepth_le : ∀ (t : Tree) (d : Nat), lastDepth t d ≤ d + Tree.depth t
  | Tree.node s cs, d => by
    rw [lastDepth, depth_children, Tree.children]
    exact lastDepthF_le cs d
theorem lastDepthF_le : ∀ (cs : List Tree) (d : Nat), lastDepthF cs d ≤ d + forestDepth cs
  | [], d => by rw [lastDepthF, forestDepth]; omega
  | [c], d => by
    rw [lastDepthF, forestDepth, forestDepth]
    have := lastDepth_le c (d + 1); omega
  | c :: c' :: cs, d => by
    rw [lastDepthF, forestDepth]
    have := lastDepthF_le (c' :: cs) d; omega
end

mutual
theorem lastDepth_ge : ∀ (t : Tree) (d : Nat), d ≤ lastDepth t d
  | Tree.node s [], d => by rw [lastDepth, lastDepthF]
  | Tree.node s (c :: cs), d => by
    rw [lastDepth]
    have := lastDepthF_ge (c :: cs) d (List.cons_ne_nil c cs); omega
theorem lastDepthF_ge : ∀ (cs : List Tree) (d : Nat), cs ≠ [] → d + 1 ≤ lastDepthF cs d
  | [], _, h => absurd rfl h
  | [c], d, _ => by rw [lastDepthF]; exact lastDepth_ge c (d + 1)
  | c :: c' :: cs, d, _ => by
    rw [lastDepthF]; exact lastDepthF_ge (c' :: cs) d (List.cons_ne_nil c' cs)
end

/-! ### The splice helper of mutation -/

mutual
theorem fars_leaf_depth : ∀ (t sub : Tree) (ni idx : Int), sub.children = [] →
    Tree.depth (find_and_replace_subtree t sub ni idx).1 = Tree.depth t
  | Tree.node s cs, sub, ni, idx, h => by
    rw [find_and_replace_subtree]
    by_cases hni : ni = idx + 1
    · rw [if_pos hni, h, List.nil_append, depth_children, depth_children]
      rfl
    · rw [if_neg hni, depth_children, depth_children, Tree.children, Tree.children]
      exact farsF_leaf_depth cs sub ni (idx + 1) h
theorem farsF_leaf_depth : ∀ (cs : List Tree) (sub : Tree) (ni idx : Int), sub.children = [] →
    forestDepth (find_and_replace_subtreeF cs sub ni idx).1 = forestDepth cs
  | [], _, _, _, _ => rfl
  | c :: cs, sub, ni, idx, h => by
    rw [find_and_replace_subtreeF, forestDepth, forestDepth,
      fars_leaf_depth c sub ni idx h, farsF_leaf_depth cs sub ni _ h]
end

theorem fars_root : ∀ t sub : Tree,
    find_and_replace_subtree t sub 0 (-1) = (Tree.node sub.sym (sub.children ++ t.children), 0)
  | Tree.node s cs, sub => by
    rw [find_and_replace_subtree, if_pos (by omega), Tree.children]
    norm_num

/-! ### The symbol table and random symbol choice -/

theorem terminals_arity : ∀ s ∈ terminals, arities s = some 0 := by decide

theorem functions_arity : ∀ s ∈ functions, arities s = some 2 := by decide

theorem terminals_not_functions : ∀ s ∈ terminals, s ∉ functions := by decide

theorem randChoice_mem {α : Type} (lst : List α) (dflt : α) (r : Rng) (h : lst ≠ []) :
    (randChoice lst dflt r).1 ∈ lst := by
  rw [randChoice]
  have hlen : 0 < lst.length := List.length_pos.mpr h
  have hidx : r.next.1 % lst.length < lst.length := Nat.mod_lt _ hlen
  rw [List.getD_eq_getElem?_getD, List.getElem?_eq_getElem hidx]
  exact List.getElem_mem hidx

theorem get_rnd_symbol_term (d m : Int) (full : Bool) (r : Rng) (h : d ≥ m) :
    (get_rnd_symbol d m full r).1 ∈ terminals := by
  rw [get_rnd_symbol, if_pos h]
  exact randChoice_mem _ _ _ (by decide)

theorem get_rnd_symbol_cases (d m : Int) (full : Bool) (r : Rng) :
    (get_rnd_symbol d m full r).1 ∈ terminals ∨
      ((get_rnd_symbol d m full r).1 ∈ functions ∧ d < m) := by
  by_cases h : d ≥ m
  · exact Or.inl (get_rnd_symbol_term d m full r h)
  · have hdm : d < m := lt_of_not_ge h
    rw [get_rnd_symbol, if_neg h]
    cases full with
    | true => exact Or.inr ⟨randChoice_mem _ _ _ (by decide), hdm⟩
    | false =>
      cases hb : (getrandbits1 r).1 with
      | true => simp only [hb]; exact Or.inl (randChoice_mem _ _ _ (by decide))
      | false => simp only [hb]; exact Or.inr ⟨randChoice_mem _ _ _ (by decide), hdm⟩

/-! ### The arity invariant -/

theorem arityOkF_iff : ∀ cs : List Tree, arityOkF cs = true ↔ ∀ c ∈ cs, arityOk c = true
  | [] => by rw [arityOkF]; simp
  | c :: cs => by
    rw [arityOkF, Bool.and_eq_true, arityOkF_iff cs]
    simp [List.forall_mem_cons]

theorem arityOk_node (s : String) (cs : List Tree) :
    arityOk (Tree.node s cs) = true ↔ (arities s = some cs.length ∧ arityOkF cs = true) := by
  rw [arityOk, Bool.and_eq_true, beq_iff_eq]

/-! ### Growth: the depth bound and the arity invariant -/

theorem growLoopAux_ok (pick : Rng → String × Rng) (growChild : String → Rng → Tree × Rng)
    (Pc : Tree → Prop) (h : ∀ r1 r2 : Rng, Pc (growChild (pick r1).1 r2).1) :
    ∀ (k : Nat) (r : Rng),
      (growLoopAux pick growChild k r).1.length = k ∧
        ∀ c ∈ (growLoopAux pick growChild k r).1, Pc c := by
  intro k
  induction k with
  | zero =>
    intro r
    refine ⟨rfl, ?_⟩
    intro c hc
    rw [growLoopAux] at hc
    cases hc
  | succ k ih =>
    intro r
    rw [growLoopAux]
    refine ⟨?_, ?_⟩
    · rw [List.length_cons, (ih _).1]
    · intro c hc
      rcases List.mem_cons.mp hc with he | hm
      · subst he; exact h r _
      · exact (ih _).2 c hm

theorem growFuel_ok : ∀ (f : Nat) (s : String) (d m : Nat) (full : Bool) (r : Rng),
    (m + 2 ≤ f + d ∨ arity s = 0) → (d ≤ m ∨ arity s = 0) → (arities s).isSome = true →
    arityOk (growFuel f (Tree.node s []) d m full r).1 = true ∧
      Tree.depth (growFuel f (Tree.node s []) d m full r).1 ≤ m + 1 - d := by
  intro f
  induction f with
  | zero =>
    intro s d m full r hf hd hs
    have ha : arity s = 0 := by
      rcases hf with hf | hf
      · rcases hd with hd | hd
        · omega
        · exact hd
      · exact hf
    rcases Option.isSome_iff_exists.mp hs with ⟨a, hsa⟩
    have ha0 : arities s = some 0 := by
      rw [arity, hsa, Option.getD_some] at ha
      rw [hsa, ha]
    rw [growFuel]
    constructor
    · rw [arityOk_node]
      exact ⟨ha0, rfl⟩
    · rw [depth_children, Tree.children, forestDepth]
      omega
  | succ f ih =>
    intro s d m full r hf hd hs
    rcases Option.isSome_iff_exists.mp hs with ⟨a, hsa⟩
    rw [growFuel]
    by_cases ha : arity s = 0
    · rw [ha]
      have ha0 : arities s = some 0 := by
        rw [arity, hsa, Option.getD_some] at ha
        rw [hsa, ha]
      constructor
      · rw [arityOk_node]
        exact ⟨by rw [ha0]; rfl, rfl⟩
      · exact Nat.zero_le _
    · have hf1 : m + 2 ≤ f + 1 + d := hf.resolve_right ha
      have hd1 : d ≤ m := hd.resolve_right ha
      have hloop := growLoopAux_ok
        (fun r0 => get_rnd_symbol (d : Int) (m : Int) full r0)
        (fun sym r0 => growFuel f (Tree.node sym []) (d + 1) m full r0)
        (fun c => arityOk c = true ∧ Tree.depth c ≤ m - d) ?_ (arity s) r
      · obtain ⟨hlen, hmem⟩ := hloop
        constructor
        · rw [List.nil_append, arityOk_node]
          refine ⟨by rw [hlen, hsa, arity, hsa]; rfl, ?_⟩
          rw [arityOkF_iff]
          exact fun c hc => (hmem c hc).1
        · rw [List.nil_append, depth_children, Tree.children]
          have hall : ∀ c ∈ (growLoopAux
              (fun r0 => get_rnd_symbol (d : Int) (m : Int) full r0)
              (fun sym r0 => growFuel f (Tree.node sym []) (d + 1) m full r0)
              (arity s) r).1, Tree.depth c + 1 ≤ m + 1 - d := by
            intro c hc
            have := (hmem c hc).2
            omega
          have := forestDepth_le _ _ hall
          omega
      · intro r1 r2
        rcases get_rnd_symbol_cases (d : Int) (m : Int) full r1 with hterm | ⟨hfun, hlt⟩
        · have h0 : arities _ = some 0 := terminals_arity _ hterm
          have hres := ih _ (d + 1) m full r2 (Or.inr (by rw [arity, h0]; rfl))
            (Or.inr (by rw [arity, h0]; rfl)) (by rw [h0]; rfl)
          exact ⟨hres.1, le_trans hres.2 (by omega)⟩
        · have hlt1 : d < m := by exact_mod_cast hlt
          have h2 : arities _ = some 2 := functions_arity _ hfun
          have hres := ih _ (d + 1) m full r2 (Or.inl (by omega)) (Or.inl (by omega))
            (by rw [h2]; rfl)
          exact ⟨hres.1, le_trans hres.2 (by omega)⟩

theorem grow_ok (s : String) (d m : Nat) (full : Bool) (r : Rng) (hd : d ≤ m)
    (hs : (arities s).isSome = true) :
    arityOk (grow (Tree.node s []) d m full r).1 = true ∧
      Tree.depth (grow (Tree.node s []) d m full r).1 ≤ m + 1 - d := by
  rw [grow]
  exact growFuel_ok (m + 2 - d) s d m full r (Or.inl (by omega)) (Or.inl hd) hs

/-! ### Functional subtree replacement -/

theorem replaceAtPosF_length : ∀ (cs : List Tree) (i : Nat) (new : Tree),
    (replaceAtPosF cs i new).length = cs.length
  | [], _, _ => rfl
  | c :: cs, i, new => by
    rw [replaceAtPosF]
    by_cases h : i < numNodes c
    · rw [if_pos h, List.length_cons, List.length_cons]
    · rw [if_neg h, List.length_cons, List.length_cons, replaceAtPosF_length cs _ new]

mutual
theorem replaceAtPos_arity : ∀ (t : Tree) (i : Nat) (new : Tree), arityOk t = true →
    arityOk new = true → arityOk (replaceAtPos t i new) = true
  | Tree.node s cs, i, new, ht, hn => by
    rw [replaceAtPos]
    by_cases h : i = 0
    · rw [if_pos h]; exact hn
    · rw [if_neg h, arityOk_node]
      rw [arityOk_node] at ht
      exact ⟨by rw [replaceAtPosF_length]; exact ht.1,
        replaceAtPosF_arity cs (i - 1) new ht.2 hn⟩
theorem replaceAtPosF_arity : ∀ (cs : List Tree) (i : Nat) (new : Tree), arityOkF cs = true →
    arityOk new = true → arityOkF (replaceAtPosF cs i new) = true
  | [], _, _, h, _ => h
  | c :: cs, i, new, h, hn => by
    rw [arityOkF, Bool.and_eq_true] at h
    rw [replaceAtPosF]
    by_cases hlt : i < numNodes c
    · rw [if_pos hlt, arityOkF, Bool.and_eq_true]
      exact ⟨replaceAtPos_arity c i new h.1 hn, h.2⟩
    · rw [if_neg hlt, arityOkF, Bool.and_eq_true]
      exact ⟨h.1, replaceAtPosF_arity cs _ new h.2 hn⟩
end

/-! ### Sorting and best fitness -/

theorem sort_population_perm (l : List Individual) : (sort_population l).Perm l := by
  rw [sort_population]
  exact (List.reverse_perm _).trans (List.perm_insertionSort fitLe l)

theorem sort_population_ne_nil {l : List Individual} (h : l ≠ []) : sort_population l ≠ [] := by
  intro hc
  have := (sort_population_perm l).symm
  rw [hc] at this
  exact h this.eq_nil

theorem sort_population_sorted (l : List Individual) :
    List.Sorted (fun a b => fitLe b a) (sort_population l) := by
  rw [sort_population]
  exact List.pairwise_reverse.mpr (List.sorted_insertionSort fitLe l)

theorem sort_population_head_max {l : List Individual} {h : Individual}
    {rest : List Individual} (hs : sort_population l = h :: rest) :
    ∀ x ∈ l, x.fitness ≤ h.fitness := by
  intro x hx
  have hmem : x ∈ sort_population l := ((sort_population_perm l).mem_iff).mpr hx
  rw [hs] at hmem
  rcases List.mem_cons.mp hmem with he | hm
  · subst he; exact le_refl _
  · have hsort := sort_population_sorted l
    rw [hs] at hsort
    exact List.rel_of_sorted_cons hsort x hm

theorem le_bestFitness_of_mem {l : List Individual} {x : Individual} (h : x ∈ l) :
    (x.fitness : WithBot ℚ) ≤ bestFitness l :=
  List.le_maximum_of_mem' (List.mem_map_of_mem Individual.fitness h)

theorem bestFitness_le_of_all {l : List Individual} {q : ℚ}
    (h : ∀ x ∈ l, x.fitness ≤ q) : bestFitness l ≤ (q : WithBot ℚ) := by
  rw [bestFitness]
  induction l with
  | nil => rw [List.map_nil, List.maximum_nil]; exact bot_le
  | cons a l ih =>
    rw [List.map_cons, List.maximum_cons]
    refine sup_le ?_ (ih fun x hx => h x (List.mem_cons_of_mem a hx))
    exact_mod_cast h a (List.mem_cons_self a l)

theorem randint0_le (hi : Nat) (r : Rng) : (randint0 hi r).1 ≤ hi := by
  rw [randint0]
  exact Nat.lt_succ_iff.mp (Nat.mod_lt _ (Nat.succ_pos hi))

theorem numNodesF_pos : ∀ cs : List Tree, cs ≠ [] → 1 ≤ numNodesF cs
  | c :: cs, _ => by rw [numNodesF]; have := numNodes_pos c; omega

theorem numNodes_lt_two_iff : ∀ t : Tree, numNodes t < 2 ↔ t.children = []
  | Tree.node s cs => by
    rw [numNodes, Tree.children]
    constructor
    · intro h
      by_contra hc
      have := numNodesF_pos cs hc
      omega
    · intro h
      subst h
      rw [numNodesF]
      omega

theorem listLen_gt_one_iff (t : Tree) : t.listLen > 1 ↔ t.children ≠ [] := by
  rw [Tree.listLen]
  constructor
  · intro h
    exact List.ne_nil_of_length_pos (by omega)
  · intro h
    have := List.length_pos.mpr h
    omega

/-! ### Generational replacement keeps the previous best -/

theorem generational_replacement_best (new old : List Individual) (param : Param)
    (hold : old ≠ []) (he : 1 ≤ param.elite_size) (hp : 1 ≤ param.population_size) :
    bestFitness old ≤ bestFitness (generational_replacement new old param) := by
  rw [generational_replacement]
  obtain ⟨e, tl, hsort⟩ : ∃ e tl, sort_population old = e :: tl := by
    match hh : sort_population old with
    | [] => exact absurd hh (sort_population_ne_nil hold)
    | e :: tl => exact ⟨e, tl, rfl⟩
  have hemax : ∀ x ∈ old, x.fitness ≤ e.fitness := sort_population_head_max hsort
  have hetake : e ∈ (sort_population old).take param.elite_size := by
    rw [hsort]
    match param.elite_size, he with
    | k + 1, _ => rw [List.take_succ_cons]; exact List.mem_cons_self e _
  have hecomb : e ∈ new ++ (sort_population old).take param.elite_size :=
    List.mem_append_right _ hetake
  obtain ⟨h2, tl2, hsort2⟩ : ∃ h2 tl2,
      sort_population (new ++ (sort_population old).take param.elite_size) = h2 :: tl2 := by
    match hh : sort_population (new ++ (sort_population old).take param.elite_size) with
    | [] => exact absurd hh (sort_population_ne_nil (List.ne_nil_of_mem hecomb))
    | h2 :: tl2 => exact ⟨h2, tl2, rfl⟩
  have hmax2 := sort_population_head_max hsort2
  have hres : h2 ∈ (sort_population
      (new ++ (sort_population old).take param.elite_size)).take param.population_size := by
    rw [hsort2]
    match param.population_size, hp with
    | k + 1, _ => rw [List.take_succ_cons]; exact List.mem_cons_self h2 _
  calc bestFitness old ≤ (e.fitness : WithBot ℚ) := bestFitness_le_of_all hemax
    _ ≤ (h2.fitness : WithBot ℚ) := by exact_mod_cast hmax2 e hecomb
    _ ≤ _ := le_bestFitness_of_mem hres

/-! ### Claim theorems -/

/-- C2 (code bug): the depth lookup never increments its `idx` counter, so,
called as in subtree_mutation (idx 0, depth 0, accumulator 0) on the tree
['+', ['x0'], ['x1']] with node_idx 1, it returns depth 0 and the unchanged
index 0, while the node at pre-order position 1 has depth 1 by the
independent recursive computation. -/
theorem get_depth_from_index_wrong_at_one :
    get_depth_from_index exTree 0 1 0 0 = (0, 0) ∧ depthAtPos exTree 1 = some 1 := by
  constructor
  · rfl
  · rfl

/-- C3 counterexample: on ['+', ['x0'], ['x1']], get_node_at_index at index 1
does not return the node visited at position 1 of the 0-based pre-order
traversal (it returns the root again). -/
theorem get_node_at_index_not_preorder :
    ¬ get_node_at_index exTree 1 = (preorder exTree).get? 1 := by decide

/-- C3 (amended): get_node_at_index is shifted by one: index 0 returns the
root; an index i ≥ 1 returns the node at pre-order position i - 1; and the
lookup fails (IndexError popping an empty stack) exactly for
i ≥ count_nodes + 1, not for i ≥ count_nodes. -/
theorem get_node_at_index_shifted (t : Tree) (i : Nat) :
    get_node_at_index t 0 = some t ∧
      (1 ≤ i → get_node_at_index t i = (preorder t).get? (i - 1)) ∧
      (get_node_at_index t i = none ↔ numNodes t + 1 ≤ i) := by
  refine ⟨rfl, ?_, ?_⟩
  · intro hi
    rw [get_node_at_index_eq, if_neg (by omega)]
  · rw [get_node_at_index_eq]
    by_cases h : i = 0
    · rw [if_pos h]
      subst h
      simp
    · rw [if_neg h, List.get?_eq_none, preorder_length]
      omega

/-- C3 witness for the amended theorem at a concrete tree and index. -/
theorem get_node_at_index_shifted_witness :
    get_node_at_index exTree 0 = some exTree ∧
      get_node_at_index exTree 2 = (preorder exTree).get? 1 ∧
      (get_node_at_index exTree 2 = none ↔ numNodes exTree + 1 ≤ 2) := by
  have h := get_node_at_index_shifted exTree 2
  exact ⟨h.1, h.2.1 (by decide), h.2.2⟩

/-- C5: for every declared root symbol, every maxDepth ≥ 1, both methods and
every random-number-generator state, the tree built by growing the root's
children as population initialization does (grow(tree, 1, max_depth, full,
symbols)) has maximum depth at most maxDepth and every node in it has
exactly arity(symbol) children. -/
theorem grow_depth_and_arity (s : String) (m : Nat) (full : Bool) (r : Rng)
    (hs : (arities s).isSome = true) (hm : 1 ≤ m) :
    get_max_depth (grow (Tree.node s []) 1 m full r).1 0 0 ≤ m ∧
      arityOk (grow (Tree.node s []) 1 m full r).1 = true := by
  have h := grow_ok s 1 m full r hm hs
  refine ⟨?_, h.1⟩
  rw [get_max_depth_eq]
  have := h.2
  omega

/-- C5 witness at root symbol "+", maxDepth 1, the grow method and the zero
stream. -/
theorem grow_depth_and_arity_witness :
    get_max_depth (grow (Tree.node "+" []) 1 1 false ⟨fun _ => 0, 0⟩).1 0 0 ≤ 1 ∧
      arityOk (grow (Tree.node "+" []) 1 1 false ⟨fun _ => 0, 0⟩).1 = true :=
  grow_depth_and_arity "+" 1 false ⟨fun _ => 0, 0⟩ (by decide) (by decide)

/-- C6: protected division: whenever the denominator child evaluates to a
value of magnitude below 1e-5, the division node returns the numerator
child's value unchanged (denominator treated as 1), and in particular
evaluate(["/", ["1"], ["0"]], case) = 1.0 for every case. -/
theorem evaluate_protected_division :
    (∀ (c1 c2 : Tree) (rest : List Tree) (case : List ℚ) (dv : ℚ),
        evaluate c2 case = some dv → |dv| < 1 / 100000 →
          evaluate (Tree.node "/" (c1 :: c2 :: rest)) case = evaluate c1 case) ∧
      ∀ case : List ℚ,
        evaluate (Tree.node "/" [Tree.node "1" [], Tree.node "0" []]) case = some 1 := by
  have hA : ∀ (c1 c2 : Tree) (rest : List Tree) (case : List ℚ) (dv : ℚ),
      evaluate c2 case = some dv → |dv| < 1 / 100000 →
        evaluate (Tree.node "/" (c1 :: c2 :: rest)) case = evaluate c1 case := by
    intro c1 c2 rest case dv hd habs
    cases h1 : evaluate c1 case with
    | none => simp only [evaluate, h1, hd]
    | some nv =>
      simp only [evaluate, h1, hd, if_pos habs, div_one]
  refine ⟨hA, ?_⟩
  intro case
  have h0 : evaluate (Tree.node "0" []) case = some 0 := by
    have h : evaluate (Tree.node "0" []) case = some ((0 : ℕ) : ℚ) := rfl
    rw [h, Nat.cast_zero]
  have h1 : evaluate (Tree.node "1" []) case = some 1 := by
    have h : evaluate (Tree.node "1" []) case = some ((1 : ℕ) : ℚ) := rfl
    rw [h, Nat.cast_one]
  rw [hA (Tree.node "1" []) (Tree.node "0" []) [] case 0 h0 (by norm_num), h1]

/-- C6 witness: apply the protected-division theorem at concrete trees. -/
theorem evaluate_protected_division_witness :
    evaluate (Tree.node "/" (Tree.node "1" [] :: Tree.node "0" [] :: [])) [] =
      evaluate (Tree.node "1" []) [] :=
  evaluate_protected_division.1 (Tree.node "1" []) (Tree.node "0" []) [] [] 0
    (by
      have h : evaluate (Tree.node "0" []) ([] : List ℚ) = some ((0 : ℕ) : ℚ) := rfl
      rw [h, Nat.cast_zero])
    (by norm_num)

/-- C8 counterexample: called with an empty fitness-case list but a nonempty
target list, evaluate_individual does not fail: it silently assigns the
degenerate fitness -0/len = 0. -/
theorem evaluate_individual_empty_cases_silent :
    evaluate_individual ⟨Tree.node "1" [], DEFAULT_FITNESS⟩ [] [3] =
      some ⟨Tree.node "1" [], 0⟩ := by
  have h : evaluate_individual ⟨Tree.node "1" [], DEFAULT_FITNESS⟩ [] [3] =
      some ⟨Tree.node "1" [], -(0 : ℚ) / ((1 : ℕ) : ℚ)⟩ := rfl
  have h2 : (-(0 : ℚ) / ((1 : ℕ) : ℚ)) = 0 := by norm_num
  rw [h, h2]

/-- C8 (amended): with an empty fitness-case set in the data-model sense
(cases and targets both empty) evaluate_individual fails — with a
ZeroDivisionError from -fitness/len(targets), not a dedicated empty-set
error — and with empty cases but nonempty targets it silently assigns the
degenerate fitness -0/len = 0 instead of failing. -/
theorem evaluate_individual_empty_behaviour (ind : Individual) (targets : List ℚ) :
    evaluate_individual ind [] [] = none ∧
      (targets ≠ [] → evaluate_individual ind [] targets = some ⟨ind.genome, 0⟩) := by
  refine ⟨rfl, ?_⟩
  intro ht
  match targets, ht with
  | t :: ts, _ =>
    have h : evaluate_individual ind [] (t :: ts) =
        some ⟨ind.genome, -(0 : ℚ) / ((ts.length + 1 : ℕ) : ℚ)⟩ := rfl
    rw [h, neg_zero, zero_div]

/-- C8 witness for the amended theorem at a concrete individual and target
list. -/
theorem evaluate_individual_empty_behaviour_witness :
    evaluate_individual ⟨Tree.node "x0" [], DEFAULT_FITNESS⟩ [] [5] =
      some ⟨Tree.node "x0" [], 0⟩ :=
  (evaluate_individual_empty_behaviour ⟨Tree.node "x0" [], DEFAULT_FITNESS⟩ [5]).2
    (List.cons_ne_nil _ _)

/-- C10: evaluate_individual modifies only the fitness field: when it
returns an individual, that individual's genome is exactly the input genome
(the evaluator itself is a pure function of the tree and the case in this
embedding). -/
theorem evaluate_individual_genome_frame (ind : Individual) (cases : List (List ℚ))
    (targets : List ℚ) (ind' : Individual)
    (h : evaluate_individual ind cases targets = some ind') :
    ind'.genome = ind.genome := by
  rw [evaluate_individual] at h
  split at h
  · cases h
  · split at h
    · cases h
    · injection h with h2
      rw [← h2]

/-- C10 witness at a concrete individual, case list and target list. -/
theorem evaluate_individual_genome_frame_witness :
    (⟨Tree.node "1" [], (0 : ℚ)⟩ : Individual).genome =
      (⟨Tree.node "1" [], DEFAULT_FITNESS⟩ : Individual).genome :=
  evaluate_individual_genome_frame ⟨Tree.node "1" [], DEFAULT_FITNESS⟩ [] [3]
    ⟨Tree.node "1" [], 0⟩
    (by
      have h : evaluate_individual ⟨Tree.node "1" [], DEFAULT_FITNESS⟩ [] [3] =
          some ⟨Tree.node "1" [], -(0 : ℚ) / ((1 : ℕ) : ℚ)⟩ := rfl
      have h2 : (-(0 : ℚ) / ((1 : ℕ) : ℚ)) = 0 := by norm_num
      rw [h, h2])

/-- C1: for every individual whose genome satisfies the arity invariant and
has maximum depth at most max_depth, every random-number-generator state and
every mutation probability, the genome returned by subtree_mutation has
maximum depth at most max_depth. -/
theorem subtree_mutation_depth_le (ind : Individual) (param : Param) (r : Rng)
    (ha : arityOk ind.genome = true)
    (hd : get_max_depth ind.genome 0 0 ≤ param.max_depth) :
    get_max_depth (subtree_mutation ind param r).1.genome 0 0 ≤ param.max_depth := by
  have hdep : Tree.depth ind.genome ≤ param.max_depth := by
    rw [get_max_depth_eq] at hd; omega
  simp only [subtree_mutation]
  by_cases hp : (randFloat r).1 < param.mutation_probability
  swap
  · rw [if_neg hp]
    exact hd
  rw [if_pos hp]
  set node_idx :=
    (randint0 (get_number_of_nodes ind.genome 0 - 1) (randFloat r).2).1 with hni
  set D := (get_depth_from_index ind.genome 0 node_idx 0 0).1 with hD
  set msd : Int := (param.max_depth : Int) - (D : Int) with hmsd
  set r2 := (randint0 (get_number_of_nodes ind.genome 0 - 1) (randFloat r).2).2 with hr2
  set sym := (get_rnd_symbol msd (param.max_depth : Int) false r2).1 with hsym
  rw [get_max_depth_eq]
  have hDle : D ≤ Tree.depth ind.genome := by
    by_cases hz : node_idx = 0
    · rw [hD, hz, gdfi_last ind.genome 0 0 0]
      have := lastDepth_le ind.genome 0
      omega
    · rw [hD, gdfi_ne ind.genome 0 node_idx 0 0 hz]
      omega
  by_cases hfun : sym ∈ functions
  swap
  · rw [if_neg hfun]
    dsimp only
    have hfd := fars_leaf_depth ind.genome (Tree.node sym [])
      (node_idx : Int) (-1) (by rw [Tree.children])
    omega
  rw [if_pos hfun]
  dsimp only
  rcases get_rnd_symbol_cases msd (param.max_depth : Int) false r2 with hterm | ⟨_, hlt⟩
  · exact absurd hfun (terminals_not_functions _ hterm)
  have hD1 : 1 ≤ D := by
    rw [hmsd] at hlt
    omega
  have hni0 : node_idx = 0 := by
    by_contra hne
    have h0 : D = 0 := by rw [hD]; exact gdfi_ne ind.genome 0 node_idx 0 0 hne
    omega
  have hgrow := grow_ok sym D param.max_depth (getrandbits1
      (get_rnd_symbol msd (param.max_depth : Int) false r2).2).1
    (getrandbits1 (get_rnd_symbol msd (param.max_depth : Int) false r2).2).2
    (by omega)
    (by rw [functions_arity sym hfun]; rfl)
  rw [hni0, Nat.cast_zero, fars_root, depth_children, Tree.children, forestDepth_append]
  rw [← depth_children]
  have hgd : Tree.depth
      (grow (Tree.node sym []) D param.max_depth
        (getrandbits1 (get_rnd_symbol msd (param.max_depth : Int) false r2).2).1
        (getrandbits1 (get_rnd_symbol msd (param.max_depth : Int) false r2).2).2).1
      ≤ param.max_depth + 1 - D := hgrow.2
  have hgenome : forestDepth ind.genome.children = Tree.depth ind.genome :=
    (depth_children ind.genome).symm
  omega

/-- The node returned by get_node_at_index is a node of the tree. -/
theorem get_node_at_index_mem {t n : Tree} {i : Nat}
    (h : get_node_at_index t i = some n) : n ∈ preorder t := by
  rw [get_node_at_index_eq] at h
  by_cases hz : i = 0
  · rw [if_pos hz] at h
    injection h with h
    rw [← h]
    exact self_mem_preorder t
  · rw [if_neg hz] at h
    exact List.get?_mem h

/-- C1 witness at a concrete individual, parameters and stream. -/
theorem subtree_mutation_depth_le_witness :
    get_max_depth (subtree_mutation ⟨exTree, DEFAULT_FITNESS⟩ param0 rng0).1.genome 0 0 ≤
      param0.max_depth :=
  subtree_mutation_depth_le ⟨exTree, DEFAULT_FITNESS⟩ param0 rng0 (by decide) (by decide)

/-- C4: for every pair of parents whose genomes satisfy the arity invariant,
every crossover probability and every random-number-generator state, both
offspring returned by subtree_crossover satisfy the arity invariant. -/
theorem subtree_crossover_arity (p1 p2 : Individual) (param : Param) (r : Rng)
    (h1 : arityOk p1.genome = true) (h2 : arityOk p2.genome = true)
    (c1 c2 : Individual) (r' : Rng)
    (hres : subtree_crossover p1 p2 param r = some ((c1, c2), r')) :
    arityOk c1.genome = true ∧ arityOk c2.genome = true := by
  simp only [subtree_crossover] at hres
  by_cases hguard : (randFloat r).1 < param.crossover_probability ∧
      p1.genome.listLen > 1 ∧ p1.genome.listLen > 0
  swap
  · rw [if_neg hguard] at hres
    simp only [Option.some.injEq, Prod.mk.injEq] at hres
    rw [← hres.1.1, ← hres.1.2]
    exact ⟨h1, h2⟩
  rw [if_pos hguard] at hres
  split at hres
  · cases hres
  case _ n0 hn0 =>
    have hn0mem : arityOk n0 = true :=
      arityOk_of_mem_preorder _ _ h1 (get_node_at_index_mem hn0)
    split at hres
    swap
    · simp only [Option.some.injEq, Prod.mk.injEq] at hres
      rw [← hres.1.1, ← hres.1.2]
      exact ⟨h1, h2⟩
    split at hres
    · simp only [Option.some.injEq, Prod.mk.injEq] at hres
      rw [← hres.1.1, ← hres.1.2]
      exact ⟨h1, h2⟩
    split at hres
    · cases hres
    case _ n1 hn1 =>
      have hn1ok : arityOk n1 = true :=
        arityOk_of_mem_preorder _ _ h2 (nodeAtPos_mem hn1)
      simp only [Option.some.injEq, Prod.mk.injEq] at hres
      rw [← hres.1.1, ← hres.1.2]
      exact ⟨replaceAtPos_arity _ _ _ h1 hn1ok, replaceAtPos_arity _ _ _ h2 hn0mem⟩

/-- C4 witness: a crossover that actually swaps the root subtrees. -/
theorem subtree_crossover_arity_witness :
    arityOk (⟨exTree2, DEFAULT_FITNESS⟩ : Individual).genome = true ∧
      arityOk (⟨exTree, DEFAULT_FITNESS⟩ : Individual).genome = true :=
  subtree_crossover_arity ⟨exTree, DEFAULT_FITNESS⟩ ⟨exTree2, DEFAULT_FITNESS⟩ param0 rng0
    (by decide) (by decide) ⟨exTree2, DEFAULT_FITNESS⟩ ⟨exTree, DEFAULT_FITNESS⟩
    ⟨fun _ => 0, 3⟩
    (by
      have hq : (randFloat rng0).1 < param0.crossover_probability := by
        norm_num [randFloat, Rng.next, rng0, param0]
      simp only [subtree_crossover]
      rw [if_pos ⟨hq, by decide, by decide⟩]
      rfl)

/-- C9: if the crossover draw does not select crossover, or if either copied
parent genome has fewer than 2 nodes, subtree_crossover returns the two deep
copies of the parents unchanged (fitness reset), with no structural
exchange.  The parents are individuals of the data model, i.e. their genomes
satisfy the arity invariant. -/
theorem subtree_crossover_no_exchange (p1 p2 : Individual) (param : Param) (r : Rng)
    (h1 : arityOk p1.genome = true) (h2 : arityOk p2.genome = true)
    (hcase : ¬ (randFloat r).1 < param.crossover_probability ∨
      numNodes p1.genome < 2 ∨ numNodes p2.genome < 2) :
    (subtree_crossover p1 p2 param r).map Prod.fst =
      some (⟨p1.genome, DEFAULT_FITNESS⟩, ⟨p2.genome, DEFAULT_FITNESS⟩) := by
  simp only [subtree_crossover]
  by_cases hguard : (randFloat r).1 < param.crossover_probability ∧
      p1.genome.listLen > 1 ∧ p1.genome.listLen > 0
  swap
  · rw [if_neg hguard]; rfl
  rw [if_pos hguard]
  have hp2 : numNodes p2.genome < 2 := by
    rcases hcase with hc | hc | hc
    · exact absurd hguard.1 hc
    · exact absurd ((numNodes_lt_two_iff p1.genome).mp hc)
        ((listLen_gt_one_iff p1.genome).mp hguard.2.1)
    · exact hc
  set node_idx := (randint0 (get_number_of_nodes p1.genome 0 - 1) (randFloat r).2).1 with hni
  have hle : node_idx ≤ get_number_of_nodes p1.genome 0 - 1 := randint0_le _ _
  have hlt : node_idx < numNodes p1.genome := by
    rw [get_number_of_nodes_eq] at hle
    have := numNodes_pos p1.genome
    omega
  obtain ⟨n0, hn0⟩ : ∃ n0, get_node_at_index p1.genome node_idx = some n0 := by
    rw [get_node_at_index_eq]
    by_cases hz : node_idx = 0
    · rw [if_pos hz]; exact ⟨_, rfl⟩
    · rw [if_neg hz]
      have hlen : node_idx - 1 < (preorder p1.genome).length := by
        rw [preorder_length]; omega
      exact ⟨_, List.get?_eq_get hlen⟩
  simp only [hn0]
  by_cases hfun : n0.sym ∈ functions
  swap
  · rw [if_neg hfun]; rfl
  rw [if_pos hfun]
  have ha2 : arity n0.sym = 2 := by
    rw [arity, functions_arity _ hfun]; rfl
  have hps : (get_nodes_with_equal_arityP p2.genome (arity n0.sym) [] (-1)).2 = [] := by
    cases hp2g : p2.genome with
    | node s2 cs =>
      have hch : cs = [] := by
        have := (numNodes_lt_two_iff p2.genome).mp hp2
        rw [hp2g, Tree.children] at this
        exact this
      subst hch
      have h2' := h2
      rw [hp2g, arityOk_node] at h2'
      rw [get_nodes_with_equal_arityP, ha2, if_neg (by rw [h2'.1]; decide),
        get_nodes_with_equal_arityPF]
  simp only [hps]
  rw [if_pos trivial]
  rfl

/-- C9 witness: crossover of two single-node parents with the zero stream. -/
theorem subtree_crossover_no_exchange_witness :
    (subtree_crossover ⟨Tree.node "x0" [], DEFAULT_FITNESS⟩
        ⟨Tree.node "1" [], DEFAULT_FITNESS⟩ param0 rng0).map Prod.fst =
      some (⟨Tree.node "x0" [], DEFAULT_FITNESS⟩, ⟨Tree.node "1" [], DEFAULT_FITNESS⟩) :=
  subtree_crossover_no_exchange ⟨Tree.node "x0" [], DEFAULT_FITNESS⟩
    ⟨Tree.node "1" [], DEFAULT_FITNESS⟩ param0 rng0 (by decide) (by decide)
    (Or.inr (Or.inl (by decide)))

/-- C7: for every run with elite_size ≥ 1 and population_size ≥ 1, the best
(highest) fitness in the population after the replacement step of one
generation of the search loop is at least the best fitness of the previous
generation's population. -/
theorem search_step_best_fitness_monotone (population : List Individual) (param : Param)
    (r : Rng) (pop' : List Individual) (r' : Rng)
    (hstep : search_step population param r = some (pop', r'))
    (helite : 1 ≤ param.elite_size) (hpop : 1 ≤ param.population_size)
    (hne : population ≠ []) :
    bestFitness population ≤ bestFitness pop' := by
  simp only [search_step] at hstep
  split at hstep
  · cases hstep
  · split at hstep
    · cases hstep
    · split at hstep
      · cases hstep
      · injection hstep with h
        injection h with hpo hr
        rw [← hpo]
        exact generational_replacement_best _ _ _ hne helite hpop

/-- C7 witness: one concrete generation step on a two-individual population
with the zero stream. -/
theorem search_step_best_fitness_monotone_witness :
    bestFitness pop7 ≤ bestFitness [indOne, indOne] :=
  search_step_best_fitness_monotone pop7 param7 rng0 [indOne, indOne] ⟨fun _ => 0, 7⟩
    (by
      have hsel : tournament_selection pop7 param7 rng0 =
          some ([indOne, indOne], ⟨fun _ => 0, 2⟩) := rfl
      have hcross : subtree_crossover indOne indOne param7 ⟨fun _ => 0, 4⟩ =
          some ((⟨Tree.node "1" [], DEFAULT_FITNESS⟩, ⟨Tree.node "1" [], DEFAULT_FITNESS⟩),
            ⟨fun _ => 0, 5⟩) := by
        simp only [subtree_crossover]
        rw [if_neg (fun hcon => absurd hcon.1 (by norm_num [randFloat, Rng.next, param7]))]
        rfl
      have hbreed : breedLoop [indOne, indOne] param7 param7.population_size
          ⟨fun _ => 0, 2⟩ = some ([⟨Tree.node "1" [], DEFAULT_FITNESS⟩,
            ⟨Tree.node "1" [], DEFAULT_FITNESS⟩], ⟨fun _ => 0, 5⟩) := by
        have hform : breedLoop [indOne, indOne] param7 param7.population_size
            ⟨fun _ => 0, 2⟩ =
            match subtree_crossover indOne indOne param7 ⟨fun _ => 0, 4⟩ with
            | none => none
            | some ((c1, c2), r2) =>
              match breedLoop [indOne, indOne] param7 0 r2 with
              | none => none
              | some (rest, r3) => some (c1 :: c2 :: rest, r3) := rfl
        rw [hform]
        simp only [hcross, breedLoop]
      have hmut5 : subtree_mutation ⟨Tree.node "1" [], DEFAULT_FITNESS⟩ param7
          ⟨fun _ => 0, 5⟩ = (⟨Tree.node "1" [], DEFAULT_FITNESS⟩, ⟨fun _ => 0, 6⟩) := by
        simp only [subtree_mutation]
        rw [if_neg (by norm_num [randFloat, Rng.next, param7])]
        rfl
      have hmut6 : subtree_mutation ⟨Tree.node "1" [], DEFAULT_FITNESS⟩ param7
          ⟨fun _ => 0, 6⟩ = (⟨Tree.node "1" [], DEFAULT_FITNESS⟩, ⟨fun _ => 0, 7⟩) := by
        simp only [subtree_mutation]
        rw [if_neg (by norm_num [randFloat, Rng.next, param7])]
        rfl
      have hmutall : mutateAll param7
          (([⟨Tree.node "1" [], DEFAULT_FITNESS⟩,
            ⟨Tree.node "1" [], DEFAULT_FITNESS⟩] : List Individual).take
              param7.population_size) ⟨fun _ => 0, 5⟩ =
          ([⟨Tree.node "1" [], DEFAULT_FITNESS⟩, ⟨Tree.node "1" [], DEFAULT_FITNESS⟩],
            ⟨fun _ => 0, 7⟩) := by
        have htake : (([⟨Tree.node "1" [], DEFAULT_FITNESS⟩,
            ⟨Tree.node "1" [], DEFAULT_FITNESS⟩] : List Individual).take
              param7.population_size) =
            [⟨Tree.node "1" [], DEFAULT_FITNESS⟩, ⟨Tree.node "1" [], DEFAULT_FITNESS⟩] := rfl
        rw [htake]
        simp only [mutateAll, hmut5, hmut6]
      have hevalind : evaluate_individual ⟨Tree.node "1" [], DEFAULT_FITNESS⟩
          param7.fitness_cases param7.targets = some indOne := by
        have h : evaluate_individual ⟨Tree.node "1" [], DEFAULT_FITNESS⟩
            param7.fitness_cases param7.targets =
            some ⟨Tree.node "1" [],
              -((0 : ℚ) + (((1 : ℕ) : ℚ) - 1) * (((1 : ℕ) : ℚ) - 1)) / ((1 : ℕ) : ℚ)⟩ := rfl
        have hv : -((0 : ℚ) + (((1 : ℕ) : ℚ) - 1) * (((1 : ℕ) : ℚ) - 1)) / ((1 : ℕ) : ℚ) =
            0 := by norm_num
        rw [h, hv]
        rfl
      have heval : evaluate_fitness [⟨Tree.node "1" [], DEFAULT_FITNESS⟩,
          ⟨Tree.node "1" [], DEFAULT_FITNESS⟩] param7 = some [indOne, indOne] := by
        simp only [evaluate_fitness, hevalind]
      simp only [search_step, hsel, hbreed, hmutall, heval]
      rfl)
    (by decide) (by decide) (by decide)

end PonyGP
